import Mathlib

/-!
Verification of the edx-dl content-discovery and resource-deduplication
pipeline (`edx_dl/edx_dl.py`) against its specification.

The Python source is shallowly embedded below.  Python dicts are modelled as
association lists in insertion order (Python dicts preserve insertion order
and this order is the traversal order the deduplication contract relies on);
Python `None`-able strings are `Option String`; the mutable set
`existing_urls` (which may hold `None`) is threaded explicitly as a list of
`Option String` values whose membership test mirrors the Python `in` test.
-/

namespace EdxDl

/-- Resource Record ("Unit"), from `edx_dl/common.py` as used by
`edx_dl/edx_dl.py`: one downloadable content item found on a subsection
page. -/
structure Unit where
  video_youtube_url : Option String
  available_subs_url : Option String
  sub_template_url : Option String
  mp4_urls : List String
  resources_urls : List String
  deriving DecidableEq

/-- The `existing_urls` set threaded through `remove_repeated_urls`.  The
Python code may insert `None` (when `unit.video_youtube_url` is `None`), so
elements are `Option String`.  Only membership is ever queried, so a list
models the Python set faithfully. -/
abbrev Claimed := List (Option String)

/-- An All-Units Map: Python dict from SubSection url to its list of Units,
in insertion order. -/
abbrev AllUnits := List (String × List Unit)

/-- The `for mp4_url in unit.mp4_urls: if mp4_url not in existing_urls: ...`
loops of `remove_repeated_urls` (lines 545-554): keep each entry not yet
claimed, claiming it immediately. -/
def dedupFilter : List String → Claimed → List String × Claimed
  | [], c => ([], c)
  | x :: xs, c =>
    if some x ∈ c then dedupFilter xs c
    else
      let r := dedupFilter xs (some x :: c)
      (x :: r.1, r.2)

/-- Lines 541-544 of `remove_repeated_urls`: `video_youtube_url = None;
if unit.video_youtube_url not in existing_urls: video_youtube_url =
unit.video_youtube_url; existing_urls.add(unit.video_youtube_url)`. -/
def claimVideo (v : Option String) (c : Claimed) : Option String × Claimed :=
  if v ∈ c then (none, c) else (v, v :: c)

/-- The body of the `for unit in units` loop of `remove_repeated_urls`
(lines 538-554): rewrite one Unit, claiming its urls field by field in
source order (video, then mp4s, then resources).  `available_subs_url` and
`sub_template_url` are copied unchanged (lines 558-559). -/
def reduceUnit (u : Unit) (c : Claimed) : Unit × Claimed :=
  let vres := claimVideo u.video_youtube_url c
  let mres := dedupFilter u.mp4_urls vres.2
  let rres := dedupFilter u.resources_urls mres.2
  (⟨vres.1, u.available_subs_url, u.sub_template_url, mres.1, rres.1⟩, rres.2)

/-- The keep condition of line 556: `video_youtube_url is not None or
len(mp4_urls) > 0 or len(resources_urls) > 0`. -/
def keepUnit (u : Unit) : Bool :=
  u.video_youtube_url.isSome || !u.mp4_urls.isEmpty || !u.resources_urls.isEmpty

/-- The `for unit in units` loop of `remove_repeated_urls` (lines 538-561):
reduce each unit in order and append it to `reduced_units` exactly when the
line-556 condition holds. -/
def reduceUnits : List Unit → Claimed → List Unit × Claimed
  | [], c => ([], c)
  | u :: us, c =>
    let p := reduceUnit u c
    let q := reduceUnits us p.2
    (if keepUnit p.1 then p.1 :: q.1 else q.1, q.2)

/-- The `for url, units in all_units.items()` loop of `remove_repeated_urls`
(lines 536-562): every key is written back (`filtered_units[url] =
reduced_units`, line 562), with the claimed set threaded across
subsections. -/
def removeAux : AllUnits → Claimed → AllUnits × Claimed
  | [], c => ([], c)
  | kv :: rest, c =>
    let p := reduceUnits kv.2 c
    let q := removeAux rest p.2
    ((kv.1, p.1) :: q.1, q.2)

/-- `remove_repeated_urls` (lines 529-563): `existing_urls = set()` then the
traversal above. -/
def remove_repeated_urls (m : AllUnits) : AllUnits := (removeAux m []).1

/-- Reference (specification-side) variant of the unit loop that reduces
every unit but drops none, used to state which records the source loop
drops. -/
def reduceAll : List Unit → Claimed → List Unit × Claimed
  | [], c => ([], c)
  | u :: us, c =>
    let p := reduceUnit u c
    let q := reduceAll us p.2
    (p.1 :: q.1, q.2)

/-- All resource urls of one record that are subject to deduplication, in
the order the source claims them: `video_youtube_url`, then `mp4_urls`,
then `resources_urls`. -/
def collectUrls (u : Unit) : List String :=
  u.video_youtube_url.toList ++ u.mp4_urls ++ u.resources_urls

/-- All deduplicated resource urls of a record list, in traversal order. -/
def collectUnits : List Unit → List String
  | [] => []
  | u :: us => collectUrls u ++ collectUnits us

/-- All deduplicated resource urls of an All-Units Map, in traversal
order. -/
def collectMap : AllUnits → List String
  | [] => []
  | kv :: rest => collectUnits kv.2 ++ collectMap rest

/-- `num_urls_in_units_dict`'s per-unit summand (lines 571-574). -/
def num_urls_in_unit (u : Unit) : Nat :=
  (if u.video_youtube_url.isSome then 1 else 0) +
  (if u.available_subs_url.isSome then 1 else 0) +
  (if u.sub_template_url.isSome then 1 else 0) +
  u.mp4_urls.length + u.resources_urls.length

/-- `num_urls_in_units_dict` (lines 566-575): sum of the per-unit summand
over every unit of every value of the dict. -/
def num_urls_in_units_dict : AllUnits → Nat
  | [] => 0
  | kv :: rest => (kv.2.map num_urls_in_unit).sum + num_urls_in_units_dict rest

/-- Count of entries dropped by one `dedupFilter` loop: an entry is counted
when it is already claimed at the moment the loop reaches it. -/
def removedInFilter : List String → Claimed → Nat
  | [], _ => 0
  | x :: xs, c =>
    if some x ∈ c then 1 + removedInFilter xs c else removedInFilter xs (some x :: c)

/-- The two subtitle-metadata summands of `num_urls_in_units_dict`
(lines 572-573), the only counted fields a record drop can remove beyond
the deduplicated ones. -/
def subsFieldCount (u : Unit) : Nat :=
  (if u.available_subs_url.isSome then 1 else 0) +
  (if u.sub_template_url.isSome then 1 else 0)

/-- Entries removed from one record by the field-by-field claiming of
`remove_repeated_urls`: the possibly dropped `video_youtube_url` plus the
dropped `mp4_urls` and `resources_urls` entries, with the claimed set at
each stage exactly as in `reduceUnit`. -/
def removedEntriesInUnit (u : Unit) (c : Claimed) : Nat :=
  (match u.video_youtube_url with
   | none => 0
   | some s => if some s ∈ c then 1 else 0) +
  removedInFilter u.mp4_urls (claimVideo u.video_youtube_url c).2 +
  removedInFilter u.resources_urls
    (dedupFilter u.mp4_urls (claimVideo u.video_youtube_url c).2).2

/-- Everything `remove_repeated_urls` removes from one record, as counted by
`num_urls_in_units_dict`: the dropped url entries, plus the subtitle
metadata fields whenever the whole record is dropped by the line-556
test. -/
def removedInUnit (u : Unit) (c : Claimed) : Nat :=
  removedEntriesInUnit u c +
    (if keepUnit (reduceUnit u c).1 then 0 else subsFieldCount u)

/-- Removed count over a record list, threading the claimed set. -/
def removedInUnits : List Unit → Claimed → Nat
  | [], _ => 0
  | u :: us, c => removedInUnit u c + removedInUnits us (reduceUnit u c).2

/-- Removed count over a whole All-Units Map, threading the claimed set. -/
def removedTotal : AllUnits → Claimed → Nat
  | [], _ => 0
  | kv :: rest, c => removedInUnits kv.2 c + removedTotal rest (reduceUnits kv.2 c).2

/-! ### Python dict operations (string-keyed, insertion-ordered) -/

/-- Keys of a dict, in insertion order. -/
def pyKeys {α : Type} (d : List (String × α)) : List String := d.map Prod.fst

/-- `d[q]` / `d.get(q)`: value at the (unique, in a real dict) key. -/
def pyLookup {α : Type} : List (String × α) → String → Option α
  | [], _ => none
  | kv :: d, q => if kv.1 = q then some kv.2 else pyLookup d q

/-- `d[k] = v`: replace the value at an existing key (keeping its position),
otherwise append the new key at the end.  On lists with unique keys (every
actual Python dict) this is exactly dict item assignment. -/
def pySet {α : Type} : List (String × α) → String → α → List (String × α)
  | [], k, v => [(k, v)]
  | kv :: d, k, v => if kv.1 = k then (k, v) :: d else kv :: pySet d k v

/-- `d.update(e)`: assign every item of `e` into `d`, in `e`'s order. -/
def pyUpdate {α : Type} (d e : List (String × α)) : List (String × α) :=
  e.foldl (fun acc kv => pySet acc kv.1 kv.2) d

/-- `dict(pairs)`: assign the pairs into an empty dict, in order. -/
def pyFromPairs {α : Type} (ps : List (String × α)) : List (String × α) :=
  pyUpdate [] ps

/-! ### Bounded Concurrent Extractor and Cache Reconciler -/

/-- `extract_all_units` (lines 300-314): `pool.map(extract_units, urls)`
applies the page fetch/parse (the external collaborator, here the `fetch`
parameter) to every url, then `dict(zip(urls, units))` pairs each url with
its own result, irrespective of completion order. -/
def extract_all_units (urls : List String) (fetch : String → List Unit) : AllUnits :=
  pyFromPairs (urls.zip (urls.map fetch))

/-- `extract_all_units_with_cache` (lines 578-595).  `cacheContent` is the
deserialized cache file: `none` models a missing file (line 584's
`os.path.exists` guard leaves `cached_units = {}`).  `new_urls` keeps, in
input order, the urls whose key is absent from the cache; only those are
extracted; `cached.copy()` followed by `update(new_units)` merges with the
new entries winning. -/
def extract_all_units_with_cache (cacheContent : Option AllUnits) (all_urls : List String)
    (fetch : String → List Unit) : AllUnits :=
  let cached_units : AllUnits := match cacheContent with | none => [] | some d => d
  let new_urls := all_urls.filter (fun url => decide (url ∉ pyKeys cached_units))
  let new_units := extract_all_units new_urls fetch
  pyUpdate cached_units new_units

/-! ### Subtitle handling -/

/-- Outcome of `get_page_contents_as_json(available_subs_url, headers)`
(an external collaborator): a parsed language list, an `HTTPError`, or any
other raised failure (e.g. a non-HTTP `URLError`, or the `ValueError` a
JSON decode failure raises). -/
inductive JsonOutcome where
  | parsed (langs : List String)
  | httpError
  | failed (msg : String)
  deriving DecidableEq

/-- Python `template % lang` at character level: substitute the single
`%s` specifier of a subtitle url template by the language code (a template
with no `%s` is returned unchanged). -/
def pyFormatChars : List Char → List Char → List Char
  | [], _ => []
  | c :: cs, sub =>
    if c = '%' then
      match cs with
      | 's' :: rest => sub ++ rest
      | _ => c :: pyFormatChars cs sub
    else c :: pyFormatChars cs sub

/-- Python `template % lang` for the single-`%s` subtitle url templates
(line 443: `sub_template_url % sub_lang`). -/
def pyFormatS (template lang : String) : String :=
  String.mk (pyFormatChars template.data lang.data)

/-- `get_subtitles_download_urls` (lines 432-445): when both urls are set,
fetch the language list — only an `HTTPError` is caught and replaced by
`['en']`; any other raised failure propagates (modelled as
`Except.error`) — then build the `{lang: template % lang}` dict. -/
def get_subtitles_download_urls (availOpt tmplOpt : Option String)
    (fetchJson : String → JsonOutcome) : Except String (List (String × String)) :=
  match availOpt, tmplOpt with
  | some availUrl, some tmpl =>
    match fetchJson availUrl with
    | JsonOutcome.parsed langs =>
      Except.ok (pyFromPairs (langs.map (fun lang => (lang, pyFormatS tmpl lang))))
    | JsonOutcome.httpError =>
      Except.ok (pyFromPairs (["en"].map (fun lang => (lang, pyFormatS tmpl lang))))
    | JsonOutcome.failed m => Except.error m
  | _, _ => Except.ok []

/-- The subtitle path of lines 464-465:
`os.path.join(target_dir, filename + '.' + sub_lang + '.srt')`. -/
def subsPath (target_dir filename lang : String) : String :=
  target_dir ++ "/" ++ filename ++ "." ++ lang ++ ".srt"

/-- The `for sub_lang, sub_url in subtitles_download_urls.items()` loop of
`_download_subtitles` (lines 463-473) over a filesystem modelled as the
list `fs` of existing paths: a path already present is skipped; otherwise
the subtitle is fetched (`getSub`, modelling `edx_get_subtitle`, which
returns `None` on failure) and, when non-empty, written — the write makes
the path exist.  Returns the new filesystem and the list of paths
written. -/
def writeSubsLoop (target_dir filename : String) (getSub : String → Option String) :
    List (String × String) → List String → List String × List String
  | [], fs => (fs, [])
  | lu :: rest, fs =>
    let p := subsPath target_dir filename lu.1
    if p ∈ fs then writeSubsLoop target_dir filename getSub rest fs
    else
      match getSub lu.2 with
      | some _ =>
        let q := writeSubsLoop target_dir filename getSub rest (p :: fs)
        (q.1, p :: q.2)
      | none => writeSubsLoop target_dir filename getSub rest fs

/-- `_download_subtitles` (lines 448-473).  `lookupFilename` models the
external `get_filename_from_prefix(target_dir, filename_prefix)`: `None`
means no downloaded video matches, and the function returns after a
warning; likewise when `unit.sub_template_url` is `None`.  A failure
raised out of `get_subtitles_download_urls` propagates. -/
def download_subtitles (u : Unit) (target_dir : String) (lookupFilename : Option String)
    (fetchJson : String → JsonOutcome) (getSub : String → Option String)
    (fs : List String) : Except String (List String × List String) :=
  match lookupFilename with
  | none => Except.ok (fs, [])
  | some filename =>
    match u.sub_template_url with
    | none => Except.ok (fs, [])
    | some _ =>
      match get_subtitles_download_urls u.available_subs_url u.sub_template_url fetchJson with
      | Except.error e => Except.error e
      | Except.ok subsUrls =>
        Except.ok (writeSubsLoop target_dir filename getSub subsUrls fs)

/-! ### The tail of `main` -/

/-- Lines 660-672 of `main`: compute `filtered_units`, the before/after
counts that are reported to the user, and the map handed to `download`.
The source hands `download` the variable `all_units` (line 672) — the raw,
pre-deduplication map — not `filtered_units`.  Returned as (map passed to
`download`, `num_all_urls`, `num_filtered_urls`). -/
def main_resources_step (all_units : AllUnits) : AllUnits × Nat × Nat :=
  let filtered_units := remove_repeated_urls all_units
  let num_all_urls := num_urls_in_units_dict all_units
  let num_filtered_urls := num_urls_in_units_dict filtered_units
  (all_units, num_all_urls, num_filtered_urls)

/-! ### Lemmas about the per-field claiming loops -/

theorem dedupFilter_claimed_mono (xs : List String) (c : Claimed) (o : Option String)
    (h : o ∈ c) : o ∈ (dedupFilter xs c).2 := by
  induction xs generalizing c with
  | nil => exact h
  | cons x xs ih =>
    simp only [dedupFilter]
    by_cases hx : some x ∈ c
    · simp only [hx, if_pos]
      exact ih c h
    · simp only [hx, if_neg, not_false_iff]
      exact ih (some x :: c) (List.mem_cons_of_mem _ h)

theorem dedupFilter_mem (xs : List String) (c : Claimed) (x : String) :
    x ∈ (dedupFilter xs c).1 ↔ x ∈ xs ∧ some x ∉ c := by
  induction xs generalizing c with
  | nil => simp [dedupFilter]
  | cons y ys ih =>
    simp only [dedupFilter]
    by_cases hy : some y ∈ c
    · simp only [hy, if_pos, ih, List.mem_cons]
      constructor
      · rintro ⟨hm, hc⟩
        exact ⟨Or.inr hm, hc⟩
      · rintro ⟨hm | hm, hc⟩
        · exact absurd (hm ▸ hy) hc
        · exact ⟨hm, hc⟩
    · simp only [hy, if_neg, not_false_iff, List.mem_cons, ih, Option.some.injEq]
      constructor
      · rintro (rfl | ⟨hm, hc⟩)
        · exact ⟨Or.inl rfl, hy⟩
        · exact ⟨Or.inr hm, fun hxc => hc (Or.inr hxc)⟩
      · rintro ⟨rfl | hm, hc⟩
        · exact Or.inl rfl
        · by_cases hxy : x = y
          · exact Or.inl hxy
          · exact Or.inr ⟨hm, fun hk => by
              rcases hk with hk | hk
              · exact hxy hk
              · exact hc hk⟩

theorem dedupFilter_claimed_mem (xs : List String) (c : Claimed) (x : String) :
    some x ∈ (dedupFilter xs c).2 ↔ some x ∈ c ∨ x ∈ (dedupFilter xs c).1 := by
  induction xs generalizing c with
  | nil => simp [dedupFilter]
  | cons y ys ih =>
    simp only [dedupFilter]
    by_cases hy : some y ∈ c
    · simp [hy, ih]
    · simp only [hy, if_neg, not_false_iff, ih, List.mem_cons, Option.some.injEq]
      constructor
      · rintro ((rfl | hc) | hm)
        · exact Or.inr (Or.inl rfl)
        · exact Or.inl hc
        · exact Or.inr (Or.inr hm)
      · rintro (hc | (rfl | hm))
        · exact Or.inl (Or.inr hc)
        · exact Or.inl (Or.inl rfl)
        · exact Or.inr hm

theorem dedupFilter_nodup (xs : List String) (c : Claimed) :
    (dedupFilter xs c).1.Nodup := by
  induction xs generalizing c with
  | nil => exact List.nodup_nil
  | cons y ys ih =>
    simp only [dedupFilter]
    by_cases hy : some y ∈ c
    · simp only [hy, if_pos]
      exact ih c
    · simp only [hy, if_neg, not_false_iff]
      refine List.nodup_cons.mpr ⟨fun hmem => ?_, ih (some y :: c)⟩
      exact ((dedupFilter_mem ys (some y :: c) y).mp hmem).2 (List.mem_cons_self _ _)

theorem claimVideo_mem (v : Option String) (c : Claimed) (x : String) :
    x ∈ (claimVideo v c).1.toList ↔ x ∈ v.toList ∧ some x ∉ c := by
  cases v with
  | none =>
    simp only [claimVideo]
    by_cases h : (none : Option String) ∈ c <;> simp [h]
  | some s =>
    simp only [claimVideo]
    by_cases h : some s ∈ c
    · simp only [h, if_pos, Option.toList_none, List.not_mem_nil, false_iff,
        Option.toList_some, List.mem_singleton, not_and]
      rintro rfl
      simp [h]
    · simp only [h, if_neg, not_false_iff, Option.toList_some, List.mem_singleton]
      constructor
      · rintro rfl
        exact ⟨rfl, h⟩
      · rintro ⟨rfl, _⟩
        rfl

theorem claimVideo_claimed_mem (v : Option String) (c : Claimed) (x : String) :
    some x ∈ (claimVideo v c).2 ↔ some x ∈ c ∨ x ∈ (claimVideo v c).1.toList := by
  cases v with
  | none =>
    simp only [claimVideo]
    by_cases h : (none : Option String) ∈ c <;> simp [h]
  | some s =>
    simp only [claimVideo]
    by_cases h : some s ∈ c
    · simp [h]
    · simp only [h, if_neg, not_false_iff, List.mem_cons, Option.some.injEq,
        Option.toList_some, List.mem_singleton]
      tauto

theorem claimVideo_claimed_mono (v : Option String) (c : Claimed) (o : Option String)
    (h : o ∈ c) : o ∈ (claimVideo v c).2 := by
  simp only [claimVideo]
  by_cases hv : v ∈ c
  · simpa [hv] using h
  · simp only [hv, if_neg, not_false_iff]
    exact List.mem_cons_of_mem _ h

theorem claimVideo_nodup (v : Option String) (c : Claimed) :
    (claimVideo v c).1.toList.Nodup := by
  cases v with
  | none =>
    simp only [claimVideo]
    by_cases h : (none : Option String) ∈ c <;> simp [h]
  | some s =>
    simp only [claimVideo]
    by_cases h : some s ∈ c <;> simp [h]

/-! ### Lemmas about the per-record rewrite -/

theorem reduceUnit_subs (u : Unit) (c : Claimed) :
    (reduceUnit u c).1.available_subs_url = u.available_subs_url ∧
      (reduceUnit u c).1.sub_template_url = u.sub_template_url :=
  ⟨rfl, rfl⟩

theorem reduceUnit_collect_mem (u : Unit) (c : Claimed) (x : String) :
    x ∈ collectUrls (reduceUnit u c).1 ↔ x ∈ collectUrls u ∧ some x ∉ c := by
  simp only [reduceUnit, collectUrls, List.mem_append, claimVideo_mem, dedupFilter_mem,
    dedupFilter_claimed_mem, claimVideo_claimed_mem]
  tauto

theorem reduceUnit_claimed_mem (u : Unit) (c : Claimed) (x : String) :
    some x ∈ (reduceUnit u c).2 ↔ some x ∈ c ∨ x ∈ collectUrls (reduceUnit u c).1 := by
  simp only [reduceUnit, collectUrls, List.mem_append, claimVideo_mem, dedupFilter_mem,
    dedupFilter_claimed_mem, claimVideo_claimed_mem]
  tauto

theorem reduceUnit_claimed_mono (u : Unit) (c : Claimed) (o : Option String)
    (h : o ∈ c) : o ∈ (reduceUnit u c).2 := by
  have h1 := claimVideo_claimed_mono u.video_youtube_url c o h
  have h2 := dedupFilter_claimed_mono u.mp4_urls _ o h1
  exact dedupFilter_claimed_mono u.resources_urls _ o h2

theorem reduceUnit_collect_nodup (u : Unit) (c : Claimed) :
    (collectUrls (reduceUnit u c).1).Nodup := by
  have hA := claimVideo_nodup u.video_youtube_url c
  have hB := dedupFilter_nodup u.mp4_urls (claimVideo u.video_youtube_url c).2
  have hC := dedupFilter_nodup u.resources_urls
    (dedupFilter u.mp4_urls (claimVideo u.video_youtube_url c).2).2
  have hAB : ∀ x, x ∈ (claimVideo u.video_youtube_url c).1.toList →
      x ∉ (dedupFilter u.mp4_urls (claimVideo u.video_youtube_url c).2).1 := by
    intro x hx hxB
    have h1 : some x ∈ (claimVideo u.video_youtube_url c).2 :=
      (claimVideo_claimed_mem _ _ _).mpr (Or.inr hx)
    exact ((dedupFilter_mem _ _ _).mp hxB).2 h1
  have hAC : ∀ x, x ∈ (claimVideo u.video_youtube_url c).1.toList →
      x ∉ (dedupFilter u.resources_urls
        (dedupFilter u.mp4_urls (claimVideo u.video_youtube_url c).2).2).1 := by
    intro x hx hxC
    have h1 : some x ∈ (claimVideo u.video_youtube_url c).2 :=
      (claimVideo_claimed_mem _ _ _).mpr (Or.inr hx)
    have h2 := dedupFilter_claimed_mono u.mp4_urls _ (some x) h1
    exact ((dedupFilter_mem _ _ _).mp hxC).2 h2
  have hBC : ∀ x, x ∈ (dedupFilter u.mp4_urls (claimVideo u.video_youtube_url c).2).1 →
      x ∉ (dedupFilter u.resources_urls
        (dedupFilter u.mp4_urls (claimVideo u.video_youtube_url c).2).2).1 := by
    intro x hx hxC
    have h1 : some x ∈ (dedupFilter u.mp4_urls (claimVideo u.video_youtube_url c).2).2 :=
      (dedupFilter_claimed_mem _ _ _).mpr (Or.inr hx)
    exact ((dedupFilter_mem _ _ _).mp hxC).2 h1
  show (((claimVideo u.video_youtube_url c).1.toList ++
      (dedupFilter u.mp4_urls (claimVideo u.video_youtube_url c).2).1) ++
      (dedupFilter u.resources_urls
        (dedupFilter u.mp4_urls (claimVideo u.video_youtube_url c).2).2).1).Nodup
  refine (hA.append hB hAB).append hC ?_
  intro x hx hxC
  rcases List.mem_append.mp hx with hx | hx
  · exact hAC x hx hxC
  · exact hBC x hx hxC

theorem keepUnit_false_collect (v : Unit) (h : keepUnit v = false) :
    collectUrls v = [] := by
  simp only [keepUnit, Bool.or_eq_false_iff, Bool.not_eq_false'] at h
  obtain ⟨⟨h1, h2⟩, h3⟩ := h
  have hv : v.video_youtube_url = none := by
    cases hvy : v.video_youtube_url
    · rfl
    · rw [hvy] at h1
      simp at h1
  rw [collectUrls, hv, List.isEmpty_iff.mp h2, List.isEmpty_iff.mp h3]
  rfl

theorem keepUnit_of_mem_collect (v : Unit) (x : String) (h : x ∈ collectUrls v) :
    keepUnit v = true := by
  cases hk : keepUnit v
  · rw [keepUnit_false_collect v hk] at h
    cases h
  · rfl

/-! ### Lemmas about the per-subsection loop -/

theorem reduceUnits_cons_claimed (u : Unit) (us : List Unit) (c : Claimed) :
    (reduceUnits (u :: us) c).2 = (reduceUnits us (reduceUnit u c).2).2 := rfl

theorem reduceUnits_cons_collect (u : Unit) (us : List Unit) (c : Claimed) :
    collectUnits (reduceUnits (u :: us) c).1
      = collectUrls (reduceUnit u c).1 ++ collectUnits (reduceUnits us (reduceUnit u c).2).1 := by
  simp only [reduceUnits]
  cases hk : keepUnit (reduceUnit u c).1
  · simp only [hk, Bool.false_eq_true, if_false]
    rw [keepUnit_false_collect _ hk, List.nil_append]
  · simp [hk, collectUnits]

theorem reduceUnits_collect_mem (us : List Unit) (c : Claimed) (x : String) :
    x ∈ collectUnits (reduceUnits us c).1 ↔ x ∈ collectUnits us ∧ some x ∉ c := by
  induction us generalizing c with
  | nil => simp [reduceUnits, collectUnits]
  | cons u us ih =>
    rw [reduceUnits_cons_collect]
    simp only [List.mem_append, ih, reduceUnit_claimed_mem, reduceUnit_collect_mem,
      collectUnits]
    tauto

theorem reduceUnits_claimed_mem (us : List Unit) (c : Claimed) (x : String) :
    some x ∈ (reduceUnits us c).2 ↔ some x ∈ c ∨ x ∈ collectUnits (reduceUnits us c).1 := by
  induction us generalizing c with
  | nil => simp [reduceUnits, collectUnits]
  | cons u us ih =>
    rw [reduceUnits_cons_claimed, reduceUnits_cons_collect]
    simp only [List.mem_append, ih, reduceUnit_claimed_mem, reduceUnit_collect_mem,
      reduceUnits_collect_mem]
    tauto

theorem reduceUnits_claimed_mono (us : List Unit) (c : Claimed) (o : Option String)
    (h : o ∈ c) : o ∈ (reduceUnits us c).2 := by
  induction us generalizing c with
  | nil => exact h
  | cons u us ih =>
    rw [reduceUnits_cons_claimed]
    exact ih _ (reduceUnit_claimed_mono u c o h)

theorem reduceUnits_collect_nodup (us : List Unit) (c : Claimed) :
    (collectUnits (reduceUnits us c).1).Nodup := by
  induction us generalizing c with
  | nil => simp [reduceUnits, collectUnits]
  | cons u us ih =>
    rw [reduceUnits_cons_collect]
    refine (reduceUnit_collect_nodup u c).append (ih _) ?_
    intro x hx hx2
    have h1 : some x ∈ (reduceUnit u c).2 := (reduceUnit_claimed_mem _ _ _).mpr (Or.inr hx)
    exact ((reduceUnits_collect_mem _ _ _).mp hx2).2 h1

theorem reduceUnits_append (as bs : List Unit) (c : Claimed) :
    reduceUnits (as ++ bs) c
      = ((reduceUnits as c).1 ++ (reduceUnits bs (reduceUnits as c).2).1,
         (reduceUnits bs (reduceUnits as c).2).2) := by
  induction as generalizing c with
  | nil => simp [reduceUnits]
  | cons a as ih =>
    simp only [List.cons_append, reduceUnits, ih]
    cases hk : keepUnit (reduceUnit a c).1 <;> simp [hk, ih]

/-! ### Lemmas about the whole-map traversal -/

theorem removeAux_cons (kv : String × List Unit) (rest : AllUnits) (c : Claimed) :
    removeAux (kv :: rest) c
      = ((kv.1, (reduceUnits kv.2 c).1) :: (removeAux rest (reduceUnits kv.2 c).2).1,
         (removeAux rest (reduceUnits kv.2 c).2).2) := rfl

theorem removeAux_collect_mem (m : AllUnits) (c : Claimed) (x : String) :
    x ∈ collectMap (removeAux m c).1 ↔ x ∈ collectMap m ∧ some x ∉ c := by
  induction m generalizing c with
  | nil => simp [removeAux, collectMap]
  | cons kv rest ih =>
    rw [removeAux_cons]
    simp only [collectMap, List.mem_append, ih, reduceUnits_collect_mem,
      reduceUnits_claimed_mem]
    tauto

theorem removeAux_claimed_mem (m : AllUnits) (c : Claimed) (x : String) :
    some x ∈ (removeAux m c).2 ↔ some x ∈ c ∨ x ∈ collectMap (removeAux m c).1 := by
  induction m generalizing c with
  | nil => simp [removeAux, collectMap]
  | cons kv rest ih =>
    rw [removeAux_cons]
    simp only [collectMap, List.mem_append, ih, reduceUnits_claimed_mem,
      reduceUnits_collect_mem, removeAux_collect_mem]
    tauto

theorem removeAux_claimed_mono (m : AllUnits) (c : Claimed) (o : Option String)
    (h : o ∈ c) : o ∈ (removeAux m c).2 := by
  induction m generalizing c with
  | nil => exact h
  | cons kv rest ih =>
    rw [removeAux_cons]
    exact ih _ (reduceUnits_claimed_mono kv.2 c o h)

theorem removeAux_collect_nodup (m : AllUnits) (c : Claimed) :
    (collectMap (removeAux m c).1).Nodup := by
  induction m generalizing c with
  | nil => simp [removeAux, collectMap]
  | cons kv rest ih =>
    rw [removeAux_cons]
    show (collectUnits (reduceUnits kv.2 c).1 ++
      collectMap (removeAux rest (reduceUnits kv.2 c).2).1).Nodup
    refine (reduceUnits_collect_nodup kv.2 c).append (ih _) ?_
    intro x hx hx2
    have h1 : some x ∈ (reduceUnits kv.2 c).2 :=
      (reduceUnits_claimed_mem _ _ _).mpr (Or.inr hx)
    exact ((removeAux_collect_mem _ _ _).mp hx2).2 h1

theorem removeAux_keys (m : AllUnits) (c : Claimed) :
    (removeAux m c).1.map Prod.fst = m.map Prod.fst := by
  induction m generalizing c with
  | nil => rfl
  | cons kv rest ih =>
    rw [removeAux_cons]
    simp [ih]

theorem removeAux_append (m₁ m₂ : AllUnits) (c : Claimed) :
    removeAux (m₁ ++ m₂) c
      = ((removeAux m₁ c).1 ++ (removeAux m₂ (removeAux m₁ c).2).1,
         (removeAux m₂ (removeAux m₁ c).2).2) := by
  induction m₁ generalizing c with
  | nil => simp [removeAux]
  | cons kv rest ih =>
    simp [removeAux_cons, ih]

/-! ### Counting lemmas -/

theorem dedupFilter_length (xs : List String) (c : Claimed) :
    (dedupFilter xs c).1.length + removedInFilter xs c = xs.length := by
  induction xs generalizing c with
  | nil => rfl
  | cons y ys ih =>
    simp only [dedupFilter, removedInFilter]
    by_cases hy : some y ∈ c
    · simp only [hy, if_pos, List.length_cons]
      have := ih c
      omega
    · simp only [hy, if_neg, not_false_iff, List.length_cons]
      have := ih (some y :: c)
      omega

theorem reduceUnit_count (u : Unit) (c : Claimed) :
    num_urls_in_unit (reduceUnit u c).1 + removedEntriesInUnit u c
      = num_urls_in_unit u := by
  rcases hvy : u.video_youtube_url with _ | s
  · have hm := dedupFilter_length u.mp4_urls (claimVideo none c).2
    have hr := dedupFilter_length u.resources_urls
      (dedupFilter u.mp4_urls (claimVideo none c).2).2
    simp only [num_urls_in_unit, reduceUnit, removedEntriesInUnit, hvy]
    by_cases h0 : (none : Option String) ∈ c
    · simp only [claimVideo, h0, if_pos] at hm hr ⊢
      simp only [Option.isSome_none, Bool.false_eq_true, if_false]
      omega
    · simp only [claimVideo, h0, if_neg, not_false_iff] at hm hr ⊢
      simp only [Option.isSome_none, Bool.false_eq_true, if_false]
      omega
  · have hm := dedupFilter_length u.mp4_urls (claimVideo (some s) c).2
    have hr := dedupFilter_length u.resources_urls
      (dedupFilter u.mp4_urls (claimVideo (some s) c).2).2
    simp only [num_urls_in_unit, reduceUnit, removedEntriesInUnit, hvy]
    by_cases h0 : some s ∈ c
    · simp only [claimVideo, h0, if_pos] at hm hr ⊢
      simp only [Option.isSome_none, Option.isSome_some, Bool.false_eq_true, if_false,
        if_true]
      omega
    · simp only [claimVideo, h0, if_neg, not_false_iff] at hm hr ⊢
      simp only [Option.isSome_some, if_true]
      omega

theorem reduceUnit_dropped_count (u : Unit) (c : Claimed)
    (h : keepUnit (reduceUnit u c).1 = false) :
    num_urls_in_unit (reduceUnit u c).1 = subsFieldCount u := by
  simp only [keepUnit, Bool.or_eq_false_iff, Bool.not_eq_false'] at h
  obtain ⟨⟨h1, h2⟩, h3⟩ := h
  simp only [num_urls_in_unit, subsFieldCount, (reduceUnit_subs u c).1,
    (reduceUnit_subs u c).2, h1, List.isEmpty_iff.mp h2, List.isEmpty_iff.mp h3,
    Bool.false_eq_true, if_false, List.length_nil]
  omega

theorem reduceUnits_count (us : List Unit) (c : Claimed) :
    ((reduceUnits us c).1.map num_urls_in_unit).sum + removedInUnits us c
      = (us.map num_urls_in_unit).sum := by
  induction us generalizing c with
  | nil => rfl
  | cons u us ih =>
    have h1 := reduceUnit_count u c
    have h2 := ih (reduceUnit u c).2
    simp only [reduceUnits, removedInUnits, removedInUnit, List.map_cons, List.sum_cons]
    cases hk : keepUnit (reduceUnit u c).1
    · have h3 := reduceUnit_dropped_count u c hk
      simp only [hk, Bool.false_eq_true, if_false, if_true]
      omega
    · simp only [hk, if_true, List.map_cons, List.sum_cons]
      omega

theorem removeAux_count (m : AllUnits) (c : Claimed) :
    num_urls_in_units_dict (removeAux m c).1 + removedTotal m c
      = num_urls_in_units_dict m := by
  induction m generalizing c with
  | nil => rfl
  | cons kv rest ih =>
    rw [removeAux_cons]
    simp only [num_urls_in_units_dict, removedTotal]
    have h1 := reduceUnits_count kv.2 c
    have h2 := ih (reduceUnits kv.2 c).2
    omega

/-! ### Claim theorems: deduplication -/

/-- C2: for every All-Units Map given to `remove_repeated_urls`, in the
filtered output no resource URL value appears more than once across all
records' `video_youtube_url`, `mp4_urls` and `resources_urls` fields
combined, over the entire map. -/
theorem dedup_no_url_appears_twice (m : AllUnits) (x : String) :
    (collectMap (remove_repeated_urls m)).count x ≤ 1 :=
  List.nodup_iff_count_le_one.mp (removeAux_collect_nodup m []) x

/-- C10: `remove_repeated_urls` preserves the key sequence of its input:
the output's subsection URLs are exactly the input's, in order, so a
subsection whose records are all dropped stays present (necessarily mapped
to the empty record list) instead of being removed from the map. -/
theorem dedup_preserves_keys (m : AllUnits) :
    (remove_repeated_urls m).map Prod.fst = m.map Prod.fst :=
  removeAux_keys m []

/-- C4: `num_urls_in_units_dict` totals (1 if `video_youtube_url` is set) +
(1 if `available_subs_url` is set) + (1 if `sub_template_url` is set) +
`len(mp4_urls)` + `len(resources_urls)` over all records, and the
before-count equals the after-count plus the number of fields/entries
removed by deduplication (`removedTotal`: the dropped url entries plus the
subtitle metadata fields of dropped records, reconstructed by replaying the
traversal). -/
theorem dedup_count_conservation (m : AllUnits) :
    num_urls_in_units_dict m
      = num_urls_in_units_dict (remove_repeated_urls m) + removedTotal m [] :=
  (removeAux_count m []).symm

/-- C3: first occurrence wins in deterministic traversal order.  If the
record `u` of subsection `k` holds resource URL `x`, and `x` occurs in no
earlier subsection and in no earlier record of `k`, then in the filtered
map the subsection at `k`'s position keeps a record that retains `x`, no
earlier surviving record of that subsection has `x`, and every other
occurrence of `x` anywhere in the filtered map — later records of `k`,
earlier or later subsections — has been removed. -/
theorem dedup_first_occurrence_wins (pre post : AllUnits) (k : String)
    (upre upost : List Unit) (u : Unit) (x : String) (hxu : x ∈ collectUrls u)
    (hpre₁ : x ∉ collectUnits upre) (hpre₂ : x ∉ collectMap pre) :
    ∃ outPre us' outPost w₁ u' w₂,
      remove_repeated_urls (pre ++ (k, upre ++ u :: upost) :: post)
          = outPre ++ (k, us') :: outPost
        ∧ outPre.length = pre.length
        ∧ us' = w₁ ++ u' :: w₂
        ∧ x ∈ collectUrls u'
        ∧ x ∉ collectUnits w₁ ∧ x ∉ collectUnits w₂
        ∧ x ∉ collectMap outPre ∧ x ∉ collectMap outPost := by
  set c₀ := (removeAux pre []).2 with hc₀def
  set c₁ := (reduceUnits upre c₀).2 with hc₁def
  have hx₀ : some x ∉ c₀ := by
    intro h
    rcases (removeAux_claimed_mem pre [] x).mp h with h | h
    · exact List.not_mem_nil _ h
    · exact hpre₂ ((removeAux_collect_mem pre [] x).mp h).1
  have hx₁ : some x ∉ c₁ := by
    intro h
    rcases (reduceUnits_claimed_mem upre c₀ x).mp h with h | h
    · exact hx₀ h
    · exact hpre₁ ((reduceUnits_collect_mem upre c₀ x).mp h).1
  have hxu' : x ∈ collectUrls (reduceUnit u c₁).1 :=
    (reduceUnit_collect_mem u c₁ x).mpr ⟨hxu, hx₁⟩
  have hkeep : keepUnit (reduceUnit u c₁).1 = true := keepUnit_of_mem_collect _ x hxu'
  have hc₂ : some x ∈ (reduceUnit u c₁).2 :=
    (reduceUnit_claimed_mem u c₁ x).mpr (Or.inr hxu')
  have h4 : reduceUnits (u :: upost) c₁
      = ((reduceUnit u c₁).1 :: (reduceUnits upost (reduceUnit u c₁).2).1,
         (reduceUnits upost (reduceUnit u c₁).2).2) := by
    simp only [reduceUnits, hkeep, if_true]
  refine ⟨(removeAux pre []).1,
    (reduceUnits upre c₀).1 ++
      (reduceUnit u c₁).1 :: (reduceUnits upost (reduceUnit u c₁).2).1,
    (removeAux post (reduceUnits upost (reduceUnit u c₁).2).2).1,
    (reduceUnits upre c₀).1, (reduceUnit u c₁).1,
    (reduceUnits upost (reduceUnit u c₁).2).1,
    ?_, ?_, rfl, hxu', ?_, ?_, ?_, ?_⟩
  · have h1 : (removeAux (pre ++ (k, upre ++ u :: upost) :: post) []).1
        = (removeAux pre []).1 ++ (removeAux ((k, upre ++ u :: upost) :: post) c₀).1 := by
      rw [removeAux_append]
    have h2 : (removeAux ((k, upre ++ u :: upost) :: post) c₀).1
        = (k, (reduceUnits (upre ++ u :: upost) c₀).1)
            :: (removeAux post (reduceUnits (upre ++ u :: upost) c₀).2).1 := by
      rw [removeAux_cons]
    have h3 : reduceUnits (upre ++ u :: upost) c₀
        = ((reduceUnits upre c₀).1 ++ (reduceUnits (u :: upost) c₁).1,
           (reduceUnits (u :: upost) c₁).2) := by
      rw [reduceUnits_append]
    show (removeAux (pre ++ (k, upre ++ u :: upost) :: post) []).1 = _
    rw [h1, h2, h3, h4]
  · have hkeys := congrArg List.length (removeAux_keys pre [])
    simpa using hkeys
  · intro h
    exact hpre₁ ((reduceUnits_collect_mem upre c₀ x).mp h).1
  · intro h
    exact ((reduceUnits_collect_mem upost (reduceUnit u c₁).2 x).mp h).2 hc₂
  · intro h
    exact hpre₂ ((removeAux_collect_mem pre [] x).mp h).1
  · intro h
    have hc₃ : some x ∈ (reduceUnits upost (reduceUnit u c₁).2).2 :=
      reduceUnits_claimed_mono upost (reduceUnit u c₁).2 (some x) hc₂
    exact ((removeAux_collect_mem post _ x).mp h).2 hc₃

/-- Witness for C3: the spec's own concrete scenario — two records in two
subsections both carrying the `mp4_urls` entry `"http://x/a.mp4"`; the
earlier subsection retains it, every other occurrence is gone. -/
theorem dedup_first_occurrence_wins_witness :
    ("http://x/a.mp4" ∈ collectUrls ⟨none, none, none, ["http://x/a.mp4"], []⟩
      ∧ "http://x/a.mp4" ∉ collectUnits []
      ∧ "http://x/a.mp4" ∉ collectMap [])
    ∧ ∃ outPre us' outPost w₁ u' w₂,
      remove_repeated_urls
          ([] ++ ("s1", [] ++ (⟨none, none, none, ["http://x/a.mp4"], []⟩ : Unit) :: [])
            :: [("s2", [⟨none, none, none, ["http://x/a.mp4"], []⟩])])
          = outPre ++ ("s1", us') :: outPost
        ∧ outPre.length = ([] : AllUnits).length
        ∧ us' = w₁ ++ u' :: w₂
        ∧ "http://x/a.mp4" ∈ collectUrls u'
        ∧ "http://x/a.mp4" ∉ collectUnits w₁ ∧ "http://x/a.mp4" ∉ collectUnits w₂
        ∧ "http://x/a.mp4" ∉ collectMap outPre ∧ "http://x/a.mp4" ∉ collectMap outPost :=
  ⟨⟨by decide, by decide, by decide⟩,
    dedup_first_occurrence_wins [] [("s2", [⟨none, none, none, ["http://x/a.mp4"], []⟩])]
      "s1" [] [] ⟨none, none, none, ["http://x/a.mp4"], []⟩ "http://x/a.mp4"
      (by decide) (by decide) (by decide)⟩

/-! ### Record drop and carried-through fields -/

theorem reduceAll_filter (us : List Unit) (c : Claimed) :
    reduceUnits us c = (((reduceAll us c).1).filter keepUnit, (reduceAll us c).2) := by
  induction us generalizing c with
  | nil => rfl
  | cons u us ih =>
    simp only [reduceUnits, reduceAll, ih, List.filter_cons]

theorem reduceAll_subs (us : List Unit) (c : Claimed) :
    (reduceAll us c).1.map (fun v => (v.available_subs_url, v.sub_template_url))
      = us.map (fun v => (v.available_subs_url, v.sub_template_url)) := by
  induction us generalizing c with
  | nil => rfl
  | cons u us ih =>
    simp only [reduceAll, List.map_cons, ih, (reduceUnit_subs u c).1,
      (reduceUnit_subs u c).2]

theorem reduceUnits_keep (us : List Unit) (c : Claimed) (u' : Unit)
    (h : u' ∈ (reduceUnits us c).1) : keepUnit u' = true := by
  induction us generalizing c with
  | nil => cases h
  | cons u us ih =>
    simp only [reduceUnits] at h
    by_cases hk : keepUnit (reduceUnit u c).1 = true
    · simp only [hk, if_true, List.mem_cons] at h
      rcases h with rfl | h
      · exact hk
      · exact ih _ h
    · simp only [hk, if_false] at h
      exact ih _ h

theorem removeAux_keep (m : AllUnits) (c : Claimed) (kv : String × List Unit) (u' : Unit)
    (h1 : kv ∈ (removeAux m c).1) (h2 : u' ∈ kv.2) : keepUnit u' = true := by
  induction m generalizing c with
  | nil => cases h1
  | cons hd rest ih =>
    rw [removeAux_cons] at h1
    rcases List.mem_cons.mp h1 with rfl | h1
    · exact reduceUnits_keep hd.2 c u' h2
    · exact ih _ h1

/-- C7: `available_subs_url` and `sub_template_url` are carried through
unchanged, position by position, by the per-record rewrite (they are never
deduplicated); and the source's record loop (`reduceUnits`) is exactly the
reference no-drop rewrite (`reduceAll`) followed by keeping a record iff,
after deduplication, its `video_youtube_url` is set or its `mp4_urls` or
`resources_urls` is non-empty — hence every record surviving in a
`remove_repeated_urls` output satisfies that condition. -/
theorem dedup_subs_carried_and_drop_iff :
    (∀ us c, reduceUnits us c
        = (((reduceAll us c).1).filter
            (fun v => v.video_youtube_url.isSome || !v.mp4_urls.isEmpty ||
              !v.resources_urls.isEmpty),
           (reduceAll us c).2))
    ∧ (∀ us c, (reduceAll us c).1.map (fun v => (v.available_subs_url, v.sub_template_url))
        = us.map (fun v => (v.available_subs_url, v.sub_template_url)))
    ∧ (∀ m kv u', kv ∈ remove_repeated_urls m → u' ∈ kv.2 →
        (u'.video_youtube_url.isSome || !u'.mp4_urls.isEmpty ||
          !u'.resources_urls.isEmpty) = true) :=
  ⟨fun us c => reduceAll_filter us c,
   fun us c => reduceAll_subs us c,
   fun m kv u' h1 h2 => removeAux_keep m [] kv u' h1 h2⟩

/-- Witness for C7 at a concrete record list and map. -/
theorem dedup_subs_carried_and_drop_iff_witness :
    (reduceUnits [⟨some "v", some "a", some "t", [], []⟩] []
        = (((reduceAll [⟨some "v", some "a", some "t", [], []⟩] []).1).filter
            (fun v => v.video_youtube_url.isSome || !v.mp4_urls.isEmpty ||
              !v.resources_urls.isEmpty),
           (reduceAll [⟨some "v", some "a", some "t", [], []⟩] []).2))
    ∧ ((reduceAll [⟨some "v", some "a", some "t", [], []⟩] []).1.map
          (fun v => (v.available_subs_url, v.sub_template_url))
        = ([⟨some "v", some "a", some "t", [], []⟩] : List Unit).map
            (fun v => (v.available_subs_url, v.sub_template_url)))
    ∧ (((⟨some "v", some "a", some "t", [], []⟩ : Unit).video_youtube_url.isSome ||
        !(⟨some "v", some "a", some "t", [], []⟩ : Unit).mp4_urls.isEmpty ||
        !(⟨some "v", some "a", some "t", [], []⟩ : Unit).resources_urls.isEmpty) = true) :=
  ⟨dedup_subs_carried_and_drop_iff.1 [⟨some "v", some "a", some "t", [], []⟩] [],
   dedup_subs_carried_and_drop_iff.2.1 [⟨some "v", some "a", some "t", [], []⟩] [],
   dedup_subs_carried_and_drop_iff.2.2
     [("s1", [⟨some "v", some "a", some "t", [], []⟩])]
     ("s1", [⟨some "v", some "a", some "t", [], []⟩])
     ⟨some "v", some "a", some "t", [], []⟩ (by decide) (by decide)⟩

/-! ### Claim theorem: the map handed to the Download Orchestrator -/

/-- C1 (code bug in the source): the tail of `main` computes
`filtered_units = remove_repeated_urls(all_units)` and reports its counts,
but then invokes `download` on `all_units` (line 672), the raw
pre-deduplication map, leaving `filtered_units` unused.  Evaluated at a
two-subsection map sharing one mp4 url: the map handed to `download` is
the raw map and differs from the filtered one. -/
theorem main_passes_raw_map_to_download :
    (main_resources_step
        [("s1", [⟨none, none, none, ["http://x/a.mp4"], []⟩]),
         ("s2", [⟨none, none, none, ["http://x/a.mp4"], []⟩])]).1
      = [("s1", [⟨none, none, none, ["http://x/a.mp4"], []⟩]),
         ("s2", [⟨none, none, none, ["http://x/a.mp4"], []⟩])]
    ∧ (main_resources_step
        [("s1", [⟨none, none, none, ["http://x/a.mp4"], []⟩]),
         ("s2", [⟨none, none, none, ["http://x/a.mp4"], []⟩])]).1
      ≠ remove_repeated_urls
        [("s1", [⟨none, none, none, ["http://x/a.mp4"], []⟩]),
         ("s2", [⟨none, none, none, ["http://x/a.mp4"], []⟩])] :=
  ⟨rfl, by decide⟩

/-! ### Dict lemmas -/

theorem pyKeys_cons {α : Type} (kv : String × α) (d : List (String × α)) :
    pyKeys (kv :: d) = kv.1 :: pyKeys d := rfl

theorem pyLookup_pySet {α : Type} (d : List (String × α)) (k q : String) (v : α) :
    pyLookup (pySet d k v) q = if k = q then some v else pyLookup d q := by
  induction d with
  | nil =>
    simp only [pySet, pyLookup]
  | cons kv d ih =>
    simp only [pySet]
    by_cases h1 : kv.1 = k
    · simp only [h1, if_pos, pyLookup]
      by_cases h2 : k = q <;> simp [h2]
    · simp only [h1, if_neg, not_false_iff, pyLookup, ih]
      by_cases h2 : kv.1 = q <;> by_cases h3 : k = q <;> simp_all

theorem pyLookup_eq_none {α : Type} (d : List (String × α)) (q : String) :
    pyLookup d q = none ↔ q ∉ pyKeys d := by
  induction d with
  | nil => simp [pyLookup, pyKeys]
  | cons kv d ih =>
    simp only [pyLookup, pyKeys_cons, List.mem_cons]
    by_cases h : kv.1 = q
    · subst h
      simp
    · simp only [h, if_neg, not_false_iff, ih]
      constructor
      · intro hq
        exact not_or.mpr ⟨fun hqe => h hqe.symm, hq⟩
      · intro hq
        exact (not_or.mp hq).2

theorem pyKeys_pySet {α : Type} (d : List (String × α)) (k : String) (v : α) :
    pyKeys (pySet d k v)
      = if k ∈ pyKeys d then pyKeys d else pyKeys d ++ [k] := by
  induction d with
  | nil => simp [pySet, pyKeys]
  | cons kv d ih =>
    simp only [pySet]
    by_cases h1 : kv.1 = k
    · simp [pyKeys_cons, h1]
    · simp only [h1, if_neg, not_false_iff, pyKeys_cons, ih, List.mem_cons]
      have h1' : ¬ k = kv.1 := fun h => h1 h.symm
      by_cases h2 : k ∈ pyKeys d <;> simp_all

theorem pySet_keys_nodup {α : Type} (d : List (String × α)) (k : String) (v : α)
    (h : (pyKeys d).Nodup) : (pyKeys (pySet d k v)).Nodup := by
  rw [pyKeys_pySet]
  by_cases hk : k ∈ pyKeys d
  · simpa [hk] using h
  · simp only [hk, if_neg, not_false_iff]
    refine h.append (List.nodup_singleton k) ?_
    intro a ha hb
    rw [List.mem_singleton] at hb
    exact hk (hb ▸ ha)

theorem pyUpdate_keys_nodup {α : Type} (e d : List (String × α))
    (h : (pyKeys d).Nodup) : (pyKeys (pyUpdate d e)).Nodup := by
  induction e generalizing d with
  | nil => exact h
  | cons kv e ih => exact ih _ (pySet_keys_nodup d kv.1 kv.2 h)

theorem pyFromPairs_keys_nodup {α : Type} (ps : List (String × α)) :
    (pyKeys (pyFromPairs ps)).Nodup :=
  pyUpdate_keys_nodup ps [] List.nodup_nil

theorem pyLookup_pyUpdate {α : Type} (d e : List (String × α)) (q : String)
    (h : (pyKeys e).Nodup) :
    pyLookup (pyUpdate d e)
        q = if q ∈ pyKeys e then pyLookup e q else pyLookup d q := by
  induction e generalizing d with
  | nil => simp [pyUpdate, pyKeys, pyLookup]
  | cons kv e ih =>
    have h' : (pyKeys e).Nodup := (List.nodup_cons.mp (pyKeys_cons kv e ▸ h)).2
    have hk : kv.1 ∉ pyKeys e := (List.nodup_cons.mp (pyKeys_cons kv e ▸ h)).1
    show pyLookup (pyUpdate (pySet d kv.1 kv.2) e) q = _
    rw [ih _ h']
    by_cases hq : q ∈ pyKeys e
    · have hne : ¬ kv.1 = q := fun hh => hk (hh ▸ hq)
      simp [pyKeys_cons, pyLookup, hq, hne]
    · rw [pyLookup_pySet]
      by_cases h2 : kv.1 = q
      · subst h2
        simp [pyKeys_cons, pyLookup, hq]
      · have h2' : ¬ q = kv.1 := fun hh => h2 hh.symm
        simp [pyKeys_cons, pyLookup, hq, h2, h2']

theorem extract_all_units_congr (urls : List String) (f g : String → List Unit)
    (h : ∀ u ∈ urls, f u = g u) :
    extract_all_units urls f = extract_all_units urls g := by
  unfold extract_all_units
  rw [List.map_congr_left h]

/-! ### Claim theorems: Cache Reconciler -/

/-- C5: `extract_all_units_with_cache` treats a missing cache file as an
empty map; the extraction result depends on the fetch collaborator only
through the requested urls that are absent from the cache keys (in input
order) — i.e. the Extractor is invoked exactly on that sublist; and the
returned map is the union of the cached map and the newly extracted map,
the newly extracted entry winning at any key. -/
theorem cache_reconciler_contract :
    (∀ urls f, extract_all_units_with_cache none urls f
        = extract_all_units_with_cache (some []) urls f)
    ∧ (∀ cached urls f g,
        (∀ u ∈ urls.filter (fun url => decide (url ∉ pyKeys cached)), f u = g u) →
        extract_all_units_with_cache (some cached) urls f
          = extract_all_units_with_cache (some cached) urls g)
    ∧ (∀ cached urls f q,
        pyLookup (extract_all_units_with_cache (some cached) urls f) q
          = if q ∈ pyKeys (extract_all_units
                (urls.filter (fun url => decide (url ∉ pyKeys cached))) f)
            then pyLookup (extract_all_units
                (urls.filter (fun url => decide (url ∉ pyKeys cached))) f) q
            else pyLookup cached q) := by
  refine ⟨fun urls f => rfl, fun cached urls f g h => ?_, fun cached urls f q => ?_⟩
  · show pyUpdate cached (extract_all_units
        (urls.filter (fun url => decide (url ∉ pyKeys cached))) f)
      = pyUpdate cached (extract_all_units
        (urls.filter (fun url => decide (url ∉ pyKeys cached))) g)
    rw [extract_all_units_congr _ f g h]
  · show pyLookup (pyUpdate cached (extract_all_units
        (urls.filter (fun url => decide (url ∉ pyKeys cached))) f)) q = _
    exact pyLookup_pyUpdate cached _ q (pyFromPairs_keys_nodup _)

/-- Witness for C5: cache holding key "u1"; two fetchers agreeing on the
non-cached url "u2" but differing on "u1" produce the same result. -/
theorem cache_reconciler_contract_witness :
    (extract_all_units_with_cache none ["u1"]
        (fun _ => [⟨none, none, none, ["http://cdn/a.mp4"], []⟩])
      = extract_all_units_with_cache (some []) ["u1"]
        (fun _ => [⟨none, none, none, ["http://cdn/a.mp4"], []⟩]))
    ∧ (∀ u ∈ (["u1", "u2"] : List String).filter
          (fun url => decide (url ∉ pyKeys ([("u1", [])] : AllUnits))),
        (fun _ => ([] : List Unit)) u
          = (fun url => if url = "u1"
              then [(⟨none, none, none, ["http://cdn/a.mp4"], []⟩ : Unit)] else []) u)
    ∧ (extract_all_units_with_cache (some [("u1", [])]) ["u1", "u2"]
          (fun _ => ([] : List Unit))
        = extract_all_units_with_cache (some [("u1", [])]) ["u1", "u2"]
          (fun url => if url = "u1"
            then [(⟨none, none, none, ["http://cdn/a.mp4"], []⟩ : Unit)] else []))
    ∧ (pyLookup (extract_all_units_with_cache (some [("u1", [])]) ["u1", "u2"]
          (fun _ => ([] : List Unit))) "u1"
        = if "u1" ∈ pyKeys (extract_all_units
              ((["u1", "u2"] : List String).filter
                (fun url => decide (url ∉ pyKeys ([("u1", [])] : AllUnits))))
              (fun _ => ([] : List Unit)))
          then pyLookup (extract_all_units
              ((["u1", "u2"] : List String).filter
                (fun url => decide (url ∉ pyKeys ([("u1", [])] : AllUnits))))
              (fun _ => ([] : List Unit))) "u1"
          else pyLookup ([("u1", [])] : AllUnits) "u1") :=
  ⟨cache_reconciler_contract.1 ["u1"]
      (fun _ => [⟨none, none, none, ["http://cdn/a.mp4"], []⟩]),
   by decide,
   cache_reconciler_contract.2.1 [("u1", [])] ["u1", "u2"]
     (fun _ => ([] : List Unit))
     (fun url => if url = "u1"
       then [(⟨none, none, none, ["http://cdn/a.mp4"], []⟩ : Unit)] else [])
     (by decide),
   cache_reconciler_contract.2.2 [("u1", [])] ["u1", "u2"]
     (fun _ => ([] : List Unit)) "u1"⟩

/-- C6: when every requested url is already a key of the cached map, the
url list handed to the Extractor is empty — zero fetch operations — and
the reconciler returns exactly the cached content. -/
theorem cache_full_hit_no_fetch (cached : AllUnits) (urls : List String)
    (f : String → List Unit) (h : ∀ u ∈ urls, u ∈ pyKeys cached) :
    urls.filter (fun url => decide (url ∉ pyKeys cached)) = []
    ∧ extract_all_units_with_cache (some cached) urls f = cached := by
  have hfil : urls.filter (fun url => decide (url ∉ pyKeys cached)) = [] := by
    rw [List.filter_eq_nil_iff]
    intro a ha
    simp [h a ha]
  refine ⟨hfil, ?_⟩
  show pyUpdate cached (extract_all_units
      (urls.filter (fun url => decide (url ∉ pyKeys cached))) f) = cached
  rw [hfil]
  rfl

/-- Witness for C6 at a one-entry cache fully covering the request. -/
theorem cache_full_hit_no_fetch_witness :
    (∀ u ∈ (["u1"] : List String),
        u ∈ pyKeys ([("u1", [⟨some "v", none, none, [], []⟩])] : AllUnits))
    ∧ (["u1"] : List String).filter
        (fun url => decide
          (url ∉ pyKeys ([("u1", [⟨some "v", none, none, [], []⟩])] : AllUnits))) = []
    ∧ extract_all_units_with_cache (some [("u1", [⟨some "v", none, none, [], []⟩])])
        ["u1"] (fun _ => []) = [("u1", [⟨some "v", none, none, [], []⟩])] :=
  ⟨by decide,
   (cache_full_hit_no_fetch [("u1", [⟨some "v", none, none, [], []⟩])] ["u1"]
     (fun _ => []) (by decide)).1,
   (cache_full_hit_no_fetch [("u1", [⟨some "v", none, none, [], []⟩])] ["u1"]
     (fun _ => []) (by decide)).2⟩

/-! ### Subtitle write lemmas -/

theorem writeSubsLoop_fs_mono (td fn : String) (gs : String → Option String)
    (l : List (String × String)) (fs : List String) (p : String) (h : p ∈ fs) :
    p ∈ (writeSubsLoop td fn gs l fs).1 := by
  induction l generalizing fs with
  | nil => exact h
  | cons lu rest ih =>
    simp only [writeSubsLoop]
    by_cases hp : subsPath td fn lu.1 ∈ fs
    · simp only [hp, if_pos]
      exact ih fs h
    · simp only [hp, if_neg, not_false_iff]
      cases hg : gs lu.2 with
      | none => exact ih fs h
      | some s => exact ih _ (List.mem_cons_of_mem _ h)

theorem writeSubsLoop_writes_subset (td fn : String) (gs : String → Option String)
    (l : List (String × String)) (fs : List String) (p : String)
    (h : p ∈ (writeSubsLoop td fn gs l fs).2) :
    p ∈ (writeSubsLoop td fn gs l fs).1 := by
  induction l generalizing fs with
  | nil => cases h
  | cons lu rest ih =>
    simp only [writeSubsLoop] at h ⊢
    by_cases hp : subsPath td fn lu.1 ∈ fs
    · simp only [hp, if_pos] at h ⊢
      exact ih fs h
    · simp only [hp, if_neg, not_false_iff] at h ⊢
      cases hg : gs lu.2 with
      | none =>
        rw [hg] at h
        exact ih fs h
      | some s =>
        rw [hg] at h
        rcases List.mem_cons.mp h with rfl | h
        · exact writeSubsLoop_fs_mono td fn gs rest _ _ (List.mem_cons_self _ _)
        · exact ih _ h

theorem writeSubsLoop_writes_new (td fn : String) (gs : String → Option String)
    (l : List (String × String)) (fs : List String) (p : String)
    (h : p ∈ (writeSubsLoop td fn gs l fs).2) : p ∉ fs := by
  induction l generalizing fs with
  | nil => cases h
  | cons lu rest ih =>
    simp only [writeSubsLoop] at h
    by_cases hp : subsPath td fn lu.1 ∈ fs
    · simp only [hp, if_pos] at h
      exact ih fs h
    · simp only [hp, if_neg, not_false_iff] at h
      cases hg : gs lu.2 with
      | none =>
        rw [hg] at h
        exact ih fs h
      | some s =>
        rw [hg] at h
        rcases List.mem_cons.mp h with rfl | h
        · exact hp
        · intro hc
          exact ih _ h (List.mem_cons_of_mem _ hc)

theorem writeSubsLoop_writes_nodup (td fn : String) (gs : String → Option String)
    (l : List (String × String)) (fs : List String) :
    (writeSubsLoop td fn gs l fs).2.Nodup := by
  induction l generalizing fs with
  | nil => exact List.nodup_nil
  | cons lu rest ih =>
    simp only [writeSubsLoop]
    by_cases hp : subsPath td fn lu.1 ∈ fs
    · simp only [hp, if_pos]
      exact ih fs
    · simp only [hp, if_neg, not_false_iff]
      cases hg : gs lu.2 with
      | none => exact ih fs
      | some s =>
        refine List.nodup_cons.mpr ⟨fun hmem => ?_, ih _⟩
        exact writeSubsLoop_writes_new td fn gs rest _ _ hmem (List.mem_cons_self _ _)

theorem writeSubsLoop_two_runs_count (td fn : String) (gs : String → Option String)
    (l : List (String × String)) (fs : List String) (p : String) :
    ((writeSubsLoop td fn gs l fs).2
      ++ (writeSubsLoop td fn gs l (writeSubsLoop td fn gs l fs).1).2).count p ≤ 1 := by
  rw [List.count_append]
  by_cases hp : p ∈ (writeSubsLoop td fn gs l fs).2
  · have h1 : (writeSubsLoop td fn gs l fs).2.count p ≤ 1 :=
      List.nodup_iff_count_le_one.mp (writeSubsLoop_writes_nodup td fn gs l fs) p
    have h2 : p ∈ (writeSubsLoop td fn gs l fs).1 :=
      writeSubsLoop_writes_subset td fn gs l fs p hp
    have h3 : p ∉ (writeSubsLoop td fn gs l (writeSubsLoop td fn gs l fs).1).2 :=
      fun hc => writeSubsLoop_writes_new td fn gs l _ p hc h2
    have h4 := List.count_eq_zero.mpr h3
    omega
  · have h1 := List.count_eq_zero.mpr hp
    have h2 : (writeSubsLoop td fn gs l (writeSubsLoop td fn gs l fs).1).2.count p ≤ 1 :=
      List.nodup_iff_count_le_one.mp (writeSubsLoop_writes_nodup td fn gs l _) p
    omega

/-! ### Claim theorems: subtitles -/

/-- C8: subtitle writing is idempotent per path. Two consecutive runs of
`_download_subtitles` for the same unit (same filename lookup, same
collaborator behaviour), the second starting from the filesystem the first
produced, perform at most one write per path in total: a path written in
the first run exists afterwards and is skipped by the second. -/
theorem subtitle_writes_idempotent (u : Unit) (td : String) (lf : Option String)
    (fj : String → JsonOutcome) (gs : String → Option String)
    (fs fs₁ w₁ fs₂ w₂ : List String) (p : String)
    (h1 : download_subtitles u td lf fj gs fs = Except.ok (fs₁, w₁))
    (h2 : download_subtitles u td lf fj gs fs₁ = Except.ok (fs₂, w₂)) :
    (w₁ ++ w₂).count p ≤ 1 := by
  unfold download_subtitles at h1 h2
  cases lf with
  | none =>
    injection h1 with h1'
    injection h2 with h2'
    obtain ⟨rfl, rfl⟩ := Prod.mk.inj h1'.symm
    obtain ⟨rfl, rfl⟩ := Prod.mk.inj h2'.symm
    simp
  | some fn =>
    cases hst : u.sub_template_url with
    | none =>
      rw [hst] at h1 h2
      injection h1 with h1'
      injection h2 with h2'
      obtain ⟨rfl, rfl⟩ := Prod.mk.inj h1'.symm
      obtain ⟨rfl, rfl⟩ := Prod.mk.inj h2'.symm
      simp
    | some t =>
      rw [hst] at h1 h2
      cases hg : get_subtitles_download_urls u.available_subs_url (some t) fj with
      | error e =>
        rw [hg] at h1
        cases h1
      | ok subsUrls =>
        rw [hg] at h1 h2
        injection h1 with h1'
        injection h2 with h2'
        obtain ⟨rfl, rfl⟩ := Prod.mk.inj h1'.symm
        obtain ⟨rfl, rfl⟩ := Prod.mk.inj h2'.symm
        exact writeSubsLoop_two_runs_count td fn gs subsUrls fs p

/-- Witness for C8: one language, empty filesystem; the first run writes
the one subtitle path, the second skips it. -/
theorem subtitle_writes_idempotent_witness :
    download_subtitles ⟨none, some "http://a", some "http://t/%s.srt", [], []⟩ "dir"
        (some "01-v.mp4") (fun _ => JsonOutcome.parsed ["en"]) (fun _ => some "subs") []
      = Except.ok (["dir/01-v.mp4.en.srt"], ["dir/01-v.mp4.en.srt"])
    ∧ download_subtitles ⟨none, some "http://a", some "http://t/%s.srt", [], []⟩ "dir"
        (some "01-v.mp4") (fun _ => JsonOutcome.parsed ["en"]) (fun _ => some "subs")
        ["dir/01-v.mp4.en.srt"]
      = Except.ok (["dir/01-v.mp4.en.srt"], [])
    ∧ ((["dir/01-v.mp4.en.srt"] ++ ([] : List String)).count "dir/01-v.mp4.en.srt" ≤ 1) :=
  ⟨rfl, rfl,
   subtitle_writes_idempotent ⟨none, some "http://a", some "http://t/%s.srt", [], []⟩
     "dir" (some "01-v.mp4") (fun _ => JsonOutcome.parsed ["en"]) (fun _ => some "subs")
     [] ["dir/01-v.mp4.en.srt"] ["dir/01-v.mp4.en.srt"] ["dir/01-v.mp4.en.srt"] []
     "dir/01-v.mp4.en.srt" rfl rfl⟩

/-- C9 counterexample: with both urls set, a subtitle-language fetch that
fails with anything other than an `HTTPError` (here, the `ValueError` a
JSON decode failure raises) is *not* replaced by `["en"]` — the error
propagates out of `get_subtitles_download_urls`, so processing does not
continue. -/
theorem subtitle_fetch_failure_not_defaulted :
    get_subtitles_download_urls (some "http://a") (some "http://t/%s.srt")
        (fun _ => JsonOutcome.failed "json decode error")
      = Except.error "json decode error" := rfl

/-- C9 amended: only a fetch failure raising `HTTPError` is non-fatal; in
that case the language list defaults to `["en"]` and subtitle processing
continues normally, producing the `{"en": template % "en"}` url map. -/
theorem subtitle_httperror_defaults_en (availUrl tmpl : String)
    (fetchJson : String → JsonOutcome)
    (h : fetchJson availUrl = JsonOutcome.httpError) :
    get_subtitles_download_urls (some availUrl) (some tmpl) fetchJson
      = Except.ok [("en", pyFormatS tmpl "en")] := by
  have hu : get_subtitles_download_urls (some availUrl) (some tmpl) fetchJson
      = match fetchJson availUrl with
        | JsonOutcome.parsed langs =>
          Except.ok (pyFromPairs (langs.map (fun lang => (lang, pyFormatS tmpl lang))))
        | JsonOutcome.httpError =>
          Except.ok (pyFromPairs (["en"].map (fun lang => (lang, pyFormatS tmpl lang))))
        | JsonOutcome.failed m => Except.error m := rfl
  rw [hu, h]
  rfl

/-- Witness for C9's amended claim at a concrete template. -/
theorem subtitle_httperror_defaults_en_witness :
    ((fun _ : String => JsonOutcome.httpError) "http://a" = JsonOutcome.httpError)
    ∧ get_subtitles_download_urls (some "http://a") (some "http://t/%s.srt")
        (fun _ => JsonOutcome.httpError)
      = Except.ok [("en", pyFormatS "http://t/%s.srt" "en")] :=
  ⟨rfl, subtitle_httperror_defaults_en "http://a" "http://t/%s.srt"
    (fun _ => JsonOutcome.httpError) rfl⟩

end EdxDl
